import Mathlib

/-!
Verification of the `loveletter` archive subsystem.

Strings from the Rust source are modelled as lists of characters
(`Str := List Char`); Rust's `u32`/`i32` string parsing, the subject
grammar, date handling (mirroring chrono's `NaiveDate::from_ymd_opt`
validity test and `%Y-%m-%d` formatting), base64 (URL_SAFE alphabet,
padded) title encoding, the letter upsert state handling, the rstdoc
generation pipeline and the git push retry loop are all embedded as
executable Lean functions, translated from `src/letter.rs`,
`src/utils.rs` and `src/git.rs`.
-/

abbrev Str := List Char

instance {ε α : Type} [DecidableEq ε] [DecidableEq α] : DecidableEq (Except ε α) := by
  intro a b
  cases a <;> cases b
  case error.error e f => exact decidable_of_iff (e = f) (by simp)
  case error.ok e f => exact isFalse (by simp)
  case ok.error e f => exact isFalse (by simp)
  case ok.ok e f => exact decidable_of_iff (e = f) (by simp)

/-- Rust `str::trim`: removes leading and trailing whitespace. -/
def strTrim (s : Str) : Str :=
  (s.dropWhile Char.isWhitespace).reverse.dropWhile Char.isWhitespace |>.reverse

/-- Rust `str::split_once(c)`: splits at the first occurrence of `c`,
returning the parts before and after it, or `none` when `c` is absent. -/
def splitOnce (c : Char) : Str → Option (Str × Str)
  | [] => none
  | x :: xs =>
    if x = c then some ([], xs)
    else (splitOnce c xs).map (fun p => (x :: p.1, p.2))

/-- Rust `str::splitn(n, c)`: at most `n` pieces, the last piece keeps any
remaining delimiters. -/
def splitn (n : Nat) (c : Char) (s : Str) : List Str :=
  match n with
  | 0 => []
  | 1 => [s]
  | n + 2 =>
    match splitOnce c s with
    | some (a, b) => a :: splitn (n + 1) c b
    | none => [s]

/-- Full split on a delimiter (used by the spec-modelled filename decoder). -/
def splitAll (c : Char) : Str → List Str
  | [] => [[]]
  | x :: xs =>
    if x = c then [] :: splitAll c xs
    else
      match splitAll c xs with
      | [] => [[x]]
      | h :: t => (x :: h) :: t

/-- Decimal digit character. -/
def digitChar (d : Nat) : Char := Char.ofNat (48 + d)

def isDigitC (c : Char) : Bool := 48 ≤ c.toNat && c.toNat ≤ 57

/-- Accumulating decimal reader over a digit string (most significant first). -/
def parseNatAux (s : Str) (acc : Nat) : Nat :=
  s.foldl (fun a c => a * 10 + (c.toNat - 48)) acc

/-- Parse a string of decimal digits; fails on empty or non-digit input. -/
def parseNatDigits (s : Str) : Option Nat :=
  if s.isEmpty then none
  else if s.all isDigitC then some (parseNatAux s 0) else none

/-- Rust `u32::from_str`: optional `+` sign, then decimal digits, range
checked against `2^32`. -/
def parseU32 (s : Str) : Option Nat :=
  let t := match s with
    | '+' :: r => r
    | r => r
  match parseNatDigits t with
  | some v => if v < 4294967296 then some v else none
  | none => none

/-- Rust `i32::from_str`: optional `+`/`-` sign, then decimal digits, range
checked against the `i32` bounds. -/
def parseI32 (s : Str) : Option Int :=
  match s with
  | '-' :: r =>
    match parseNatDigits r with
    | some v => if v ≤ 2147483648 then some (-(v : Int)) else none
    | none => none
  | '+' :: r =>
    match parseNatDigits r with
    | some v => if v ≤ 2147483647 then some (v : Int) else none
    | none => none
  | r =>
    match parseNatDigits r with
    | some v => if v ≤ 2147483647 then some (v : Int) else none
    | none => none

/-- Big-endian decimal digits of `n` (without leading zeros), via a fuel
argument so that the definition is structural and kernel-evaluable. -/
def natCharsAux (digits : Nat → Char) : Nat → Nat → Str
  | 0, _ => []
  | fuel + 1, n =>
    if n = 0 then []
    else natCharsAux digits fuel (n / 10) ++ [digits (n % 10)]

/-- Decimal representation of a natural number, as Rust's `to_string`. -/
def natChars (n : Nat) : Str :=
  if n = 0 then ['0'] else natCharsAux digitChar n n

/-- Zero-pad a digit string on the left to width `w`. -/
def padZeros (w : Nat) (s : Str) : Str :=
  List.replicate (w - s.length) '0' ++ s

/-- Rust `i32::to_string` (used for the per-year document filename). -/
def intChars (y : Int) : Str :=
  if y < 0 then '-' :: natChars y.natAbs else natChars y.toNat

/-- `letter.rs` `Date`: year + month + optional day, field for field. -/
structure Date where
  year : Int
  month : Nat
  day : Option Nat
  deriving DecidableEq, Repr

/-- Errors raised while parsing a subject line
(`Archive::parse_subject` and `Date::parse` in `letter.rs`). -/
inductive SubjectErr where
  /-- `bail!("unmatched square brackets")` -/
  | unmatchedBrackets
  /-- `.context("expect date YYYY/*MM*/DD")` : fewer than two date fields -/
  | missingMonth
  /-- a year/month/day token failed integer parsing -/
  | badNumber
  deriving DecidableEq, Repr

/-- `Date::parse`: extract year/month/day from `"YYYY/MM[/DD]"` split on a
delimiter.  Note: there is no calendar-range validation here; only integer
parsing of each token. -/
def Date.parse (delim : Char) (s : Str) : Except SubjectErr Date :=
  match splitn 3 delim s with
  | [] => .error .missingMonth
  | [_] => .error .missingMonth
  | y :: m :: rest =>
    match parseI32 y with
    | none => .error .badNumber
    | some year =>
      match parseU32 m with
      | none => .error .badNumber
      | some month =>
        match rest with
        | [] => .ok ⟨year, month, none⟩
        | d :: _ =>
          match parseU32 d with
          | none => .error .badNumber
          | some day => .ok ⟨year, month, some day⟩

/-- `Date::from_subject`: split on `/`. -/
def Date.fromSubject (s : Str) : Except SubjectErr Date := Date.parse '/' s

/-- `Date::from_filename`: split on `-`. -/
def Date.fromFilename (s : Str) : Except SubjectErr Date := Date.parse '-' s

/-- `Archive::parse_subject`: parse `"[ACTION] YYYY/MM/DD: TITLE"` into
(date, optional title, optional action). -/
def parse_subject (subject : Str) : Except SubjectErr (Date × Option Str × Option Str) := do
  let ptr := strTrim subject
  -- Extract title from "...: TITLE" (ASCII colon first, then CJK colon).
  let (ptr, title) :=
    match splitOnce ':' ptr with
    | some (p, t) => (p, some t)
    | none =>
      match splitOnce '：' ptr with
      | some (p, t) => (p, some t)
      | none => (ptr, none)
  let ptr := strTrim ptr
  let title := (title.map strTrim).filter (fun x => !x.isEmpty)
  -- Extract action from "[ACTION] YYYY/MM/DD...".
  let (action, ptr) ←
    match splitOnce ']' ptr with
    | some (a, p) =>
      match splitOnce '[' a with
      | some (_, action) => pure (some action, p)
      | none => .error .unmatchedBrackets
    | none => pure (none, ptr)
  let ptr := strTrim ptr
  let action := (action.map strTrim).filter (fun x => !x.isEmpty)
  -- Extract year/month/day from "YYYY/MM/DD".
  let date ← Date.fromSubject ptr
  pure (date, title, action)

/-- chrono leap-year rule (proleptic Gregorian). -/
def isLeapYear (y : Int) : Bool := y % 4 = 0 && (y % 100 != 0 || y % 400 = 0)

def daysInMonth (y : Int) (m : Nat) : Nat :=
  if m = 2 then (if isLeapYear y then 29 else 28)
  else if m = 4 || m = 6 || m = 9 || m = 11 then 30
  else 31

/-- chrono `NaiveDate::from_ymd_opt` succeeds: year within chrono's
supported range (`i32::MIN >> 13` to `i32::MAX >> 13`), month in `1..=12`,
day in `1..=days_in_month`. -/
def chronoYmdValid (y : Int) (m d : Nat) : Bool :=
  -262144 ≤ y && y ≤ 262143 && 1 ≤ m && m ≤ 12 && 1 ≤ d && d ≤ daysInMonth y m

/-- chrono `%Y`: zero-padded to 4 digits; years outside `0..10000` get an
explicit sign and are zero-padded to 4 digits after it. -/
def yearChars (y : Int) : Str :=
  if 0 ≤ y && y < 10000 then padZeros 4 (natChars y.toNat)
  else if y < 0 then '-' :: padZeros 4 (natChars y.natAbs)
  else '+' :: padZeros 4 (natChars y.toNat)

/-- chrono `%m` / `%d`: zero-padded to 2 digits. -/
def pad2 (n : Nat) : Str := padZeros 2 (natChars n)

/-- `impl fmt::Display for Date`: format as `%Y-%m-%d` (day present) or
`%Y-%m` (day absent) through `NaiveDate::from_ymd_opt` with
`day.unwrap_or(1)`; an invalid date renders as the empty string (the
source logs an error there). -/
def Date.display (d : Date) : Str :=
  if chronoYmdValid d.year d.month (d.day.getD 1) then
    yearChars d.year ++ '-' :: pad2 d.month ++
      (match d.day with
       | some dd => '-' :: pad2 dd
       | none => [])
  else []

/-- base64 URL_SAFE alphabet (`A-Z a-z 0-9 - _`). -/
def b64Char (v : Nat) : Char :=
  if v < 26 then Char.ofNat (65 + v)
  else if v < 52 then Char.ofNat (97 + (v - 26))
  else if v < 62 then Char.ofNat (48 + (v - 52))
  else if v = 62 then '-' else '_'

def b64CharVal (c : Char) : Option Nat :=
  if 65 ≤ c.toNat && c.toNat ≤ 90 then some (c.toNat - 65)
  else if 97 ≤ c.toNat && c.toNat ≤ 122 then some (c.toNat - 97 + 26)
  else if 48 ≤ c.toNat && c.toNat ≤ 57 then some (c.toNat - 48 + 52)
  else if c = '-' then some 62
  else if c = '_' then some 63
  else none

/-- base64 `URL_SAFE.encode`: URL-safe alphabet, `=`-padded. -/
def b64encode : List Nat → Str
  | [] => []
  | [b1] => [b64Char (b1 / 4), b64Char (b1 % 4 * 16), '=', '=']
  | [b1, b2] => [b64Char (b1 / 4), b64Char (b1 % 4 * 16 + b2 / 16), b64Char (b2 % 16 * 4), '=']
  | b1 :: b2 :: b3 :: rest =>
    b64Char (b1 / 4) :: b64Char (b1 % 4 * 16 + b2 / 16) ::
      b64Char (b2 % 16 * 4 + b3 / 64) :: b64Char (b3 % 64) :: b64encode rest

/-- base64 URL-safe decoding, inverse of `b64encode`. -/
def b64decode : Str → Option (List Nat)
  | [] => some []
  | c1 :: c2 :: c3 :: c4 :: rest =>
    match b64CharVal c1, b64CharVal c2 with
    | some v1, some v2 =>
      if c3 = '=' then
        if c4 = '=' ∧ rest = [] then some [v1 * 4 + v2 / 16] else none
      else
        match b64CharVal c3 with
        | some v3 =>
          if c4 = '=' then
            if rest = [] then some [v1 * 4 + v2 / 16, v2 % 16 * 16 + v3 / 4] else none
          else
            match b64CharVal c4 with
            | some v4 =>
              (b64decode rest).map
                (fun bs => (v1 * 4 + v2 / 16) :: (v2 % 16 * 16 + v3 / 4) :: (v3 % 4 * 64 + v4) :: bs)
            | none => none
        | none => none
    | _, _ => none
  | _ => none

/-- UTF-8 encoding of one scalar value (as Rust `String` bytes). -/
def utf8EncodeChar (c : Char) : List Nat :=
  let v := c.toNat
  if v < 128 then [v]
  else if v < 2048 then [192 + v / 64, 128 + v % 64]
  else if v < 65536 then [224 + v / 4096, 128 + v / 64 % 64, 128 + v % 64]
  else [240 + v / 262144, 128 + v / 4096 % 64, 128 + v / 64 % 64, 128 + v % 64]

/-- UTF-8 bytes of a string (Rust `str::as_bytes`). -/
def utf8Encode (s : Str) : List Nat := (s.map utf8EncodeChar).flatten

/-- `email_address::EmailAddress`, reduced to the two parts the source
reads: the display name (`display_part()`) and the address identity
(`email()`). -/
structure EmailAddr where
  display : Str
  email : Str
  deriving DecidableEq, Repr

/-- `EmailAddressList::find` (utils.rs): first entry whose `email()` part
equals the argument's; the display name plays no role. -/
def EmailAddressList.find (l : List EmailAddr) (elem : EmailAddr) : Option EmailAddr :=
  match l with
  | [] => none
  | addr :: rest =>
    if addr.email = elem.email then some addr else EmailAddressList.find rest elem

/-- `LoveLetter` (letter.rs), field for field.  Timestamps are abstract
instants (`Nat`), strings are `Str`. -/
structure LoveLetter where
  from_ : EmailAddr
  to_ : EmailAddr
  from_meimei_if_true_and_gege_if_false : Bool
  created_at : Option Nat
  updated_at : Option Nat
  date : Date
  title : Option Str
  content : Str
  deriving DecidableEq, Repr

/-- Models the external `unicode_width` crate's `width_cjk` (the exact
widths are immaterial: the theorems treat rendered text symbolically). -/
def charWidthCjk (c : Char) : Nat := if c.toNat < 4352 then 1 else 2

def widthCjk (s : Str) : Nat := (s.map charWidthCjk).sum

/-- Stands in for chrono's `DateTime` `%Y-%m-%d` rendering of the abstract
timestamps; the exact text is immaterial to the claims. -/
def tsChars (n : Nat) : Str := natChars n

def LoveLetter.author (l : LoveLetter) : Str :=
  if l.from_meimei_if_true_and_gege_if_false then "妹妹".data else "哥哥".data

/-- `LoveLetter::rstdoc_heading`. -/
def LoveLetter.rstdoc_heading (l : LoveLetter) : Str :=
  let title := "💌  Love Letters from ".data ++ intChars l.date.year
  let delim := List.replicate (widthCjk title) '='
  delim ++ '\n' :: title ++ '\n' :: delim ++ "\n\n".data

/-- `LoveLetter::rstdoc_section`. -/
def LoveLetter.rstdoc_section (l : LoveLetter) : Str :=
  let title := l.date.display ++
    (match l.title with
     | some t => ": ".data ++ t
     | none => [])
  title ++ '\n' :: List.replicate (widthCjk title) '=' ++ '\n' ::
    ("\n.. loveletter:: _\n   :date: ".data ++ l.date.display ++
     "\n   :nick: ".data ++ l.from_.display ++
     "\n   :author: ".data ++ l.author ++
     "\n   :createdat: ".data ++ (l.created_at.map tsChars).getD [] ++
     "\n   :updatedat: ".data ++ (l.updated_at.map tsChars).getD [] ++
     "\n\n   .. raw:: html\n\n      ".data ++ l.content ++ "\n".data) ++
    "\n".data

/-- `LoveLetter::letter_filename` as a function of date and title. -/
def letterFilename (d : Date) (t : Option Str) : Str :=
  match t with
  | some title => d.display ++ '_' :: b64encode (utf8Encode title) ++ ".toml".data
  | none => d.display ++ ".toml".data

def LoveLetter.letter_filename (l : LoveLetter) : Str :=
  letterFilename l.date l.title

/-- `LoveLetter::rstdoc_filename`: `year.toml`. -/
def LoveLetter.rstdoc_filename (l : LoveLetter) : Str :=
  intChars l.date.year ++ ".toml".data

/-- The `ArchiveCfg` fields `Archive::upsert_letter` reads. -/
structure ArchiveCfg where
  allowed_from_addrs : List EmailAddr
  allowed_to_addrs : List EmailAddr
  overwrite : Option Bool
  deriving Repr

/-- The `ParsedMail` accessors `Archive::upsert_letter` calls, as data. -/
structure ParsedMail where
  from_ : Option EmailAddr
  to_ : Option EmailAddr
  subject : Option Str
  date : Option Nat
  html_body : Option Str
  deriving Repr

inductive UpsertErr where
  | noSender
  | senderNotAllowed
  | noRecipient
  | recipientNotAllowed
  | noSubject
  | malformedSubject (e : SubjectErr)
  | noBody
  | unknownRole
  | conflict
  | unknownAction (a : Str)
  deriving DecidableEq, Repr

/-- The letter directory: filename to stored record. -/
def FS := Str → Option LoveLetter

def fsWrite (fs : FS) (k : Str) (v : LoveLetter) : FS :=
  fun x => if x = k then some v else fs x

/-- `Archive::is_from_meimei_or_gege`. -/
def is_from_meimei_or_gege (cfg : ArchiveCfg) (addr : EmailAddr) : Except UpsertErr Bool :=
  match EmailAddressList.find cfg.allowed_from_addrs addr with
  | none => .error .senderNotAllowed
  | some matched =>
    if matched.display = "妹妹".data then .ok true
    else if matched.display = "哥哥".data then .ok false
    else .error .unknownRole

/-- `Archive::upsert_letter`, with the letter directory threaded as
explicit state.  The trailing git `add`/`commit`/`push` calls, which do
not modify letter files, are not modelled. -/
def Archive.upsert_letter (cfg : ArchiveCfg) (fs : FS) (mail : ParsedMail) :
    FS × Except UpsertErr LoveLetter :=
  match mail.from_ with
  | none => (fs, .error .noSender)
  | some from0 =>
    match EmailAddressList.find cfg.allowed_from_addrs from0 with
    | none => (fs, .error .senderNotAllowed)
    | some a =>
      let fromA := if from0.display.isEmpty then a else from0
      match mail.to_ with
      | none => (fs, .error .noRecipient)
      | some to0 =>
        match EmailAddressList.find cfg.allowed_to_addrs to0 with
        | none => (fs, .error .recipientNotAllowed)
        | some b =>
          let toA := if to0.display.isEmpty then b else to0
          match mail.subject with
          | none => (fs, .error .noSubject)
          | some subject =>
            match parse_subject subject with
            | .error e => (fs, .error (.malformedSubject e))
            | .ok (date, title, action) =>
              match mail.html_body with
              | none => (fs, .error .noBody)
              | some content =>
                match is_from_meimei_or_gege cfg fromA with
                | .error e => (fs, .error e)
                | .ok flag =>
                  let letter : LoveLetter :=
                    { from_ := fromA, to_ := toA,
                      from_meimei_if_true_and_gege_if_false := flag,
                      created_at := mail.date, updated_at := mail.date,
                      date := date, title := title, content := content }
                  let fname := letter.letter_filename
                  let letterExists := (fs fname).isSome
                  let check : Except UpsertErr Unit :=
                    match action with
                    | none =>
                      if letterExists && !(cfg.overwrite.getD false) then .error .conflict
                      else .ok ()
                    | some act =>
                      if act = "edit".data then .ok () else .error (.unknownAction act)
                  match check with
                  | .error e => (fs, .error e)
                  | .ok _ =>
                    let letter :=
                      if letterExists then
                        { letter with created_at :=
                            (match fs fname with
                             | some old => old.created_at
                             | none => none) }
                      else letter
                    (fsWrite fs fname letter, .ok letter)

/-- Lexicographic order on strings by code point (PathBuf `Ord` compares
UTF-8 bytes, whose order agrees with code-point order). -/
def lexLe : Str → Str → Bool
  | [], _ => true
  | _ :: _, [] => false
  | a :: as, b :: bs => if a < b then true else if a = b then lexLe as bs else false

def strLe (a b : Str) : Prop := lexLe a b = true

instance : DecidableRel strLe := fun a b =>
  inferInstanceAs (Decidable (lexLe a b = true))

/-- `Path::extension() == Some("toml")`: the name ends in `.toml` and has a
nonempty stem before the dot. -/
def hasTomlExt (s : Str) : Bool :=
  decide (5 < s.length) && decide (s.drop (s.length - 5) = ".toml".data)

/-- Content of the static `index.rst`, written unconditionally. -/
def indexContent : Str :=
  "===============\n💌 Love Letters\n===============\n\n.. hint::\n   Generated from :ghrepo:`SilverRainZ/loveletter`.\n\n.. toctree::\n   :glob:\n\n   *\n".data

inductive GenErr where
  | loadFailed
  deriving DecidableEq, Repr

/-- Association-list lookup (the `HashMap<PathBuf, String>` of
`generate_rstdoc`, with deterministic insertion order). -/
def alLookup : List (Str × Str) → Str → Option Str
  | [], _ => none
  | (k, v) :: rest, q => if k = q then some v else alLookup rest q

/-- Replace the value stored at a present key. -/
def alSet : List (Str × Str) → Str → Str → List (Str × Str)
  | [], _, _ => []
  | (k, v) :: rest, q, nv => if k = q then (k, nv) :: rest else (k, v) :: alSet rest q nv

/-- The per-entry loop of `generate_rstdoc`: load each letter, append its
section to its year document (with a one-time heading on first insert). -/
def rstdocLoop (fs : FS) : List Str → List (Str × Str) → Except GenErr (List (Str × Str))
  | [], m => .ok m
  | e :: rest, m =>
    match fs e with
    | none => .error .loadFailed
    | some letter =>
      let file := letter.rstdoc_filename
      match alLookup m file with
      | some content => rstdocLoop fs rest (alSet m file (content ++ letter.rstdoc_section))
      | none => rstdocLoop fs rest (m ++ [(file, letter.rstdoc_heading ++ letter.rstdoc_section)])

/-- `Archive::generate_rstdoc`: the list of `(filename, bytes)` writes it
performs into the rstdoc directory — the static index first, then one file
per year.  `listing` is what `read_dir` returns for the letter directory
(arbitrary order); the loop runs over it filtered to `.toml` files, sorted
and reversed as in the source.  The git calls are not modelled. -/
def Archive.generate_rstdoc (fs : FS) (listing : List Str) :
    Except GenErr (List (Str × Str)) :=
  match rstdocLoop fs ((List.insertionSort strLe (listing.filter hasTomlExt)).reverse) [] with
  | .error e => .error e
  | .ok docs => .ok (("index.rst".data, indexContent) :: docs)

/-- The rstdoc directory as a map, and the effect of `fs::write` calls. -/
def applyDocWrites (docs : Str → Option Str) (ws : List (Str × Str)) : Str → Option Str :=
  ws.foldl (fun d p => fun x => if x = p.1 then some p.2 else d x) docs

/-- Shell commands `Repo` methods run (git.rs). -/
inductive GitCmd where
  | pullRebase
  | gitPush
  | gitClean
  | gitResetHard
  deriving DecidableEq, Repr

inductive GitErr where
  /-- `bail!("failed to pull from remote")` -/
  | pullFailed
  /-- `bail!("failed to push to remote")` -/
  | pushFailed
  deriving DecidableEq, Repr

/-- One `for i in 0..retry` loop of `Repo::push`: run `cmd`, break on
success, bail after the last failed attempt.  `ok i` is the outcome the
environment gives attempt `i`; returns the commands run and whether the
loop ended in success. -/
def retryPhase (cmd : GitCmd) (ok : Nat → Bool) : Nat → Nat → List GitCmd × Bool
  | 0, _ => ([], true)
  | n + 1, i =>
    if ok i then ([cmd], true)
    else if n = 0 then ([cmd], false)
    else
      let r := retryPhase cmd ok n (i + 1)
      (cmd :: r.1, r.2)

/-- `Repo::push(retry)`: the pull/rebase loop, then (only on success) the
push loop; returns the full command trace and the result. -/
def Repo.push (pullOk pushOk : Nat → Bool) (retry : Int) :
    List GitCmd × Except GitErr Unit :=
  let p := retryPhase .pullRebase pullOk retry.toNat 0
  if p.2 then
    let q := retryPhase .gitPush pushOk retry.toNat 0
    (p.1 ++ q.1, if q.2 then .ok () else .error .pushFailed)
  else (p.1, .error .pullFailed)

/-- `Repo::cleanup`: the two commands it runs (for contrast with `push`,
which never runs them). -/
def Repo.cleanup : List GitCmd := [.gitClean, .gitResetHard]

def mkDate (neg : Bool) (y m : Nat) (d : Option Nat) : Date :=
  ⟨if neg then -(y : Int) else (y : Int), m, d⟩

/-- Modelled from the spec: decode the year/month/day fields of a date
text whose sign has already been stripped. -/
def decodeDateFields (neg : Bool) (rest : Str) : Option Date :=
  match splitAll '-' rest with
  | [y, m] => do
    pure (mkDate neg (← parseNatDigits y) (← parseNatDigits m) none)
  | [y, m, d] => do
    pure (mkDate neg (← parseNatDigits y) (← parseNatDigits m) (some (← parseNatDigits d)))
  | _ => none

/-- Modelled from the spec: no code in src/ ever decodes a letter filename
back into its date — `Date::from_filename` is only applied to the TOML
`date` field.  Following the spec's words ("the filename derived from
(D, T) decodes back to exactly D and T"), this decoder reads an optionally
signed year, a two-digit month and optional two-digit day. -/
def decodeDateChars (s : Str) : Option Date :=
  match s with
  | [] => none
  | c :: r =>
    if c = '-' then decodeDateFields true r
    else if c = '+' then decodeDateFields false r
    else decodeDateFields false (c :: r)

/-- Modelled from the spec: inverse of `letterFilename` — strip the
`.toml` extension, split date and title at the first `_` (the date text
never contains one), decode the date and base64-decode the title bytes. -/
def decodeFilename (s : Str) : Option (Date × Option (List Nat)) :=
  if s.drop (s.length - 5) = ".toml".data ∧ 5 ≤ s.length then
    let base := s.take (s.length - 5)
    match splitOnce '_' base with
    | some (d, t) => do
      let date ← decodeDateChars d
      let bytes ← b64decode t
      some (date, some bytes)
    | none => (decodeDateChars base).map (fun date => (date, none))
  else none

/-! Concrete fixtures, used to evaluate the embedded operations on
specific inputs. -/

def meiAddr : EmailAddr := ⟨"妹妹".data, "mei@example.com".data⟩

def geAddr : EmailAddr := ⟨"哥哥".data, "ge@example.com".data⟩

def demoCfg : ArchiveCfg := ⟨[meiAddr], [geAddr], none⟩

def emptyFS : FS := fun _ => none

def demoMail : ParsedMail :=
  ⟨some ⟨[], "mei@example.com".data⟩, some ⟨[], "ge@example.com".data⟩,
   some "1998/01/28".data, some 100, some "hello".data⟩

def demoEditMail : ParsedMail :=
  ⟨some ⟨[], "mei@example.com".data⟩, some ⟨[], "ge@example.com".data⟩,
   some "[edit] 1998/01/28".data, some 200, some "revised".data⟩

/-- A mail whose subject carries the calendar-invalid date `2024/13/45`. -/
def badDateMail : ParsedMail :=
  ⟨some ⟨[], "mei@example.com".data⟩, some ⟨[], "ge@example.com".data⟩,
   some "2024/13/45".data, some 100, some "hello".data⟩

def demoLetter : LoveLetter :=
  { from_ := meiAddr, to_ := geAddr,
    from_meimei_if_true_and_gege_if_false := true,
    created_at := some 100, updated_at := some 100,
    date := ⟨1998, 1, some 28⟩, title := none, content := "hello".data }

def demoLetter2025 : LoveLetter :=
  { from_ := meiAddr, to_ := geAddr,
    from_meimei_if_true_and_gege_if_false := true,
    created_at := some 300, updated_at := some 300,
    date := ⟨2025, 4, some 3⟩, title := none, content := "yo".data }

/-- A two-record letter directory (years 1998 and 2025). -/
def demoFS : FS := fun k =>
  if k = demoLetter.letter_filename then some demoLetter
  else if k = demoLetter2025.letter_filename then some demoLetter2025
  else none

/-- The last write to `k` in a write list, if any. -/
def lastWrite : List (Str × Str) → Str → Option Str
  | [], _ => none
  | (f, c) :: rest, k =>
    match lastWrite rest k with
    | some v => some v
    | none => if k = f then some c else none

/-- An empty rstdoc directory. -/
def emptyDocs : Str → Option Str := fun _ => none

def demoListing : List Str :=
  [demoLetter.letter_filename, demoLetter2025.letter_filename]

def demoListingRev : List Str :=
  [demoLetter2025.letter_filename, demoLetter.letter_filename]

/-- The writes `generate_rstdoc` performs on the demo directory. -/
def demoGenWrites : List (Str × Str) :=
  match Archive.generate_rstdoc demoFS demoListing with
  | .ok ws => ws
  | .error _ => []

/-- The records contributing to year document `k`: the `.toml` letter
files, in the descending filename order `generate_rstdoc` uses, loaded and
restricted to those targeting `k`. -/
def yearGroup (fs : FS) (listing : List Str) (k : Str) : List LoveLetter :=
  (((List.insertionSort strLe (listing.filter hasTomlExt)).reverse).filterMap fs).filter
    (fun r => decide (r.rstdoc_filename = k))

/-- Content accumulated for one year document: `prev` is what the map
already holds for that file, `g` the records still to be appended. -/
def groupContent (prev : Option Str) (g : List LoveLetter) : Option Str :=
  match prev, g with
  | some c, g => some (c ++ (g.map LoveLetter.rstdoc_section).flatten)
  | none, [] => none
  | none, r :: rs =>
    some (r.rstdoc_heading ++ ((r :: rs).map LoveLetter.rstdoc_section).flatten)

/-- The full text of a year document holding exactly the records `g` (in
order): one heading (from the first record), then one section per record. -/
def yearDocContent (g : List LoveLetter) : Option Str :=
  groupContent none g

/-! ## Helper lemmas -/

theorem retryPhase_snd_iff (cmd : GitCmd) (ok : Nat → Bool) :
    ∀ n i, (retryPhase cmd ok n i).2 = true ↔
      (n = 0 ∨ ∃ j, i ≤ j ∧ j < i + n ∧ ok j = true) := by
  intro n
  induction n with
  | zero => intro i; simp [retryPhase]
  | succ n ih =>
    intro i
    cases hok : ok i with
    | true =>
      have heq : retryPhase cmd ok (n + 1) i = ([cmd], true) := by
        simp [retryPhase, hok]
      rw [heq]
      constructor
      · intro _; exact Or.inr ⟨i, Nat.le_refl i, by omega, hok⟩
      · intro _; rfl
    | false =>
      by_cases hn : n = 0
      · subst hn
        have heq : retryPhase cmd ok 1 i = ([cmd], false) := by
          simp [retryPhase, hok]
        rw [heq]
        simp only [Bool.false_eq_true, false_iff]
        rintro (hc | ⟨j, h1, h2, h3⟩)
        · exact one_ne_zero hc
        · have hji : j = i := by omega
          subst hji
          rw [hok] at h3
          exact Bool.noConfusion h3
      · have heq : retryPhase cmd ok (n + 1) i =
            (cmd :: (retryPhase cmd ok n (i + 1)).1, (retryPhase cmd ok n (i + 1)).2) := by
          simp [retryPhase, hok, hn]
        rw [heq]
        dsimp only
        rw [ih (i + 1)]
        constructor
        · rintro (hc | ⟨j, h1, h2, h3⟩)
          · exact absurd hc hn
          · exact Or.inr ⟨j, by omega, by omega, h3⟩
        · rintro (hc | ⟨j, h1, h2, h3⟩)
          · exact absurd hc (by omega)
          · by_cases hji : j = i
            · subst hji; rw [hok] at h3; exact Bool.noConfusion h3
            · exact Or.inr ⟨j, by omega, by omega, h3⟩

theorem retryPhase_fst_replicate (cmd : GitCmd) (ok : Nat → Bool) :
    ∀ n i, ∃ a, a ≤ n ∧ (retryPhase cmd ok n i).1 = List.replicate a cmd := by
  intro n
  induction n with
  | zero => intro i; exact ⟨0, Nat.le_refl 0, rfl⟩
  | succ n ih =>
    intro i
    by_cases h : ok i
    · exact ⟨1, by omega, by simp [retryPhase, h]⟩
    · by_cases hn : n = 0
      · subst hn
        exact ⟨1, by omega, by simp [retryPhase, h]⟩
      · obtain ⟨a, ha, heq⟩ := ih (i + 1)
        refine ⟨a + 1, by omega, ?_⟩
        simp [retryPhase, h, hn, heq, List.replicate_succ]

/-! ## Claims -/

/-- **C7**: for every `retry ≥ 1`, `Repo::push` first runs the pull/rebase
loop, failing with `pullFailed` exactly when all `retry` pull attempts
fail; only then runs the push loop under the same policy (`pushFailed`
exactly when some pull succeeded but all `retry` push attempts fail,
success exactly when both loops find a successful attempt); the command
trace is some pulls followed by some pushes, each bounded by `retry`,
pushes occurring only after a successful pull, and `push` never runs the
commit-discarding commands `git clean` / `git reset --hard`. -/
theorem push_retry_policy (pullOk pushOk : Nat → Bool) (retry : Int)
    (h : 1 ≤ retry) :
    ((Repo.push pullOk pushOk retry).2 = .error .pullFailed ↔
      ∀ i < retry.toNat, pullOk i = false)
    ∧ ((Repo.push pullOk pushOk retry).2 = .error .pushFailed ↔
      (∃ i < retry.toNat, pullOk i = true) ∧ ∀ j < retry.toNat, pushOk j = false)
    ∧ ((Repo.push pullOk pushOk retry).2 = .ok () ↔
      (∃ i < retry.toNat, pullOk i = true) ∧ ∃ j < retry.toNat, pushOk j = true)
    ∧ (∃ a b, (Repo.push pullOk pushOk retry).1 =
        List.replicate a .pullRebase ++ List.replicate b .gitPush ∧
        a ≤ retry.toNat ∧ b ≤ retry.toNat ∧
        (b ≠ 0 → ∃ i < retry.toNat, pullOk i = true))
    ∧ GitCmd.gitClean ∉ (Repo.push pullOk pushOk retry).1
    ∧ GitCmd.gitResetHard ∉ (Repo.push pullOk pushOk retry).1 := by
  have hn : retry.toNat ≠ 0 := by omega
  have hpull := retryPhase_snd_iff .pullRebase pullOk retry.toNat 0
  have hpush := retryPhase_snd_iff .gitPush pushOk retry.toNat 0
  have hpull' : (retryPhase .pullRebase pullOk retry.toNat 0).2 = true ↔
      ∃ i < retry.toNat, pullOk i = true := by
    rw [hpull]
    constructor
    · rintro (hc | ⟨j, _, h2, h3⟩)
      · exact absurd hc hn
      · exact ⟨j, by omega, h3⟩
    · rintro ⟨j, h2, h3⟩; exact Or.inr ⟨j, by omega, by omega, h3⟩
  have hpush' : (retryPhase .gitPush pushOk retry.toNat 0).2 = true ↔
      ∃ j < retry.toNat, pushOk j = true := by
    rw [hpush]
    constructor
    · rintro (hc | ⟨j, _, h2, h3⟩)
      · exact absurd hc hn
      · exact ⟨j, by omega, h3⟩
    · rintro ⟨j, h2, h3⟩; exact Or.inr ⟨j, by omega, by omega, h3⟩
  obtain ⟨a, ha, hatr⟩ := retryPhase_fst_replicate .pullRebase pullOk retry.toNat 0
  obtain ⟨b, hb, hbtr⟩ := retryPhase_fst_replicate .gitPush pushOk retry.toNat 0
  unfold Repo.push
  by_cases hp : (retryPhase .pullRebase pullOk retry.toNat 0).2 = true
  · simp only [hp, if_true]
    by_cases hq : (retryPhase .gitPush pushOk retry.toNat 0).2 = true
    · simp only [hq, if_true]
      refine ⟨by simp [hpull', hp, ← hpull'] at *; tauto, ?_, ?_, ?_, ?_, ?_⟩
      · constructor
        · intro hc; cases hc
        · rintro ⟨_, hall⟩
          obtain ⟨j, hj, hje⟩ := hpush'.mp hq
          rw [hall j hj] at hje; cases hje
      · simp only [true_iff]
        exact ⟨hpull'.mp hp, hpush'.mp hq⟩
      · exact ⟨a, b, by rw [hatr, hbtr], ha, hb, fun _ => hpull'.mp hp⟩
      · rw [hatr, hbtr]; simp
      · rw [hatr, hbtr]; simp
    · simp only [hq, if_false]
      have hqf : ¬ ∃ j < retry.toNat, pushOk j = true := fun hc => hq (hpush'.mpr hc)
      refine ⟨?_, ?_, ?_, ?_, ?_, ?_⟩
      · constructor
        · intro hc; cases hc
        · intro hall
          obtain ⟨i, hi, hie⟩ := hpull'.mp hp
          rw [hall i hi] at hie; cases hie
      · constructor
        · intro _
          refine ⟨hpull'.mp hp, fun j hj => ?_⟩
          by_cases hx : pushOk j = true
          · exact absurd ⟨j, hj, hx⟩ hqf
          · exact Bool.not_eq_true _ ▸ hx
        · intro _; rfl
      · constructor
        · intro hc; cases hc
        · rintro ⟨_, hex⟩; exact absurd hex hqf
      · exact ⟨a, b, by rw [hatr, hbtr], ha, hb, fun _ => hpull'.mp hp⟩
      · rw [hatr, hbtr]; simp
      · rw [hatr, hbtr]; simp
  · simp only [hp, if_false]
    have hpf : ¬ ∃ i < retry.toNat, pullOk i = true := fun hc => hp (hpull'.mpr hc)
    refine ⟨?_, ?_, ?_, ?_, ?_, ?_⟩
    · constructor
      · intro _
        intro i hi
        by_cases hx : pullOk i = true
        · exact absurd ⟨i, hi, hx⟩ hpf
        · exact Bool.not_eq_true _ ▸ hx
      · intro _; rfl
    · constructor
      · intro hc; cases hc
      · rintro ⟨hex, _⟩; exact absurd hex hpf
    · constructor
      · intro hc; cases hc
      · rintro ⟨hex, _⟩; exact absurd hex hpf
    · refine ⟨a, 0, ?_, ha, by omega, fun hc => absurd rfl hc⟩
      rw [hatr]; simp
    · rw [hatr]; simp
    · rw [hatr]; simp

/-- Witness for C7 at `retry = 3` with the first pull succeeding and all
pushes failing. -/
theorem push_retry_policy_witness :
    (1 : Int) ≤ 3 ∧
    ((Repo.push (fun _ => true) (fun _ => false) 3).2 = .error .pushFailed ↔
      (∃ i < (3 : Int).toNat, (fun _ => true) i = true) ∧
        ∀ j < (3 : Int).toNat, (fun _ => false) j = false) :=
  ⟨by decide, (push_retry_policy (fun _ => true) (fun _ => false) 3 (by decide)).2.1⟩

/-- **C10**: for every retry count ≤ 0, `Repo::push` performs no pull and
no push attempt (empty command trace) and returns success. -/
theorem push_nonpositive_retry (pullOk pushOk : Nat → Bool) (retry : Int)
    (h : retry ≤ 0) :
    Repo.push pullOk pushOk retry = ([], .ok ()) := by
  have : retry.toNat = 0 := by omega
  unfold Repo.push
  rw [this]
  simp [retryPhase]

/-- Witness for C10 at `retry = -2`. -/
theorem push_nonpositive_retry_witness :
    Repo.push (fun _ => true) (fun _ => true) (-2) = ([], .ok ()) :=
  push_nonpositive_retry (fun _ => true) (fun _ => true) (-2) (by decide)

/-- **C5**: `parse_subject("[edit] 1998/01/28: Title")` yields date
1998-01-28, title `"Title"`, action `"edit"`; `parse_subject("1998/01/28")`
yields the date with no title and no action; `parse_subject("[edit
1998/01/28")` (unmatched bracket) fails. -/
theorem parse_subject_examples :
    parse_subject "[edit] 1998/01/28: Title".data =
      .ok (⟨1998, 1, some 28⟩, some "Title".data, some "edit".data)
    ∧ parse_subject "1998/01/28".data = .ok (⟨1998, 1, some 28⟩, none, none)
    ∧ parse_subject "[edit 1998/01/28".data = .error .badNumber := by
  refine ⟨by decide, by decide, by decide⟩

/-- **C1** (code bug evidence): the subject `"2024/13/45"` carries a
calendar-invalid date (month 13, day 45), yet `parse_subject` accepts it —
`Date::parse` never checks calendar ranges — and `upsert_letter` happily
writes a record whose date has month 13 and day 45, while that date is
invalid per `NaiveDate::from_ymd_opt` (the source's own `Display`
implementation error-logs on it and renders it as the empty string). -/
theorem invalid_date_accepted :
    parse_subject "2024/13/45".data = .ok (⟨2024, 13, some 45⟩, none, none)
    ∧ chronoYmdValid 2024 13 45 = false
    ∧ Date.display ⟨2024, 13, some 45⟩ = []
    ∧ (∃ L, (Archive.upsert_letter demoCfg emptyFS badDateMail).2 = .ok L ∧
        L.date = ⟨2024, 13, some 45⟩) := by
  refine ⟨by decide, by decide, by decide,
    ⟨{ from_ := meiAddr, to_ := geAddr,
       from_meimei_if_true_and_gege_if_false := true,
       created_at := some 100, updated_at := some 100,
       date := ⟨2024, 13, some 45⟩, title := none, content := "hello".data },
     by decide, by decide⟩⟩

/-- **C6**: allow-list matching compares the address identity only — the
argument's display name never influences `find` — and `upsert_letter`
rejects a message whenever its sender (resp. recipient, once the sender
resolved) matches no entry of the applicable allow-list, leaving the
letter directory untouched. -/
theorem allowlist_identity_only :
    (∀ (l : List EmailAddr) (a b : EmailAddr), a.email = b.email →
      EmailAddressList.find l a = EmailAddressList.find l b)
    ∧ (∀ (cfg : ArchiveCfg) (fs : FS) (m : ParsedMail) (from0 : EmailAddr),
        m.from_ = some from0 →
        EmailAddressList.find cfg.allowed_from_addrs from0 = none →
        Archive.upsert_letter cfg fs m = (fs, .error .senderNotAllowed))
    ∧ (∀ (cfg : ArchiveCfg) (fs : FS) (m : ParsedMail) (from0 a to0 : EmailAddr),
        m.from_ = some from0 →
        EmailAddressList.find cfg.allowed_from_addrs from0 = some a →
        m.to_ = some to0 →
        EmailAddressList.find cfg.allowed_to_addrs to0 = none →
        Archive.upsert_letter cfg fs m = (fs, .error .recipientNotAllowed)) := by
  refine ⟨?_, ?_, ?_⟩
  · intro l a b hab
    induction l with
    | nil => rfl
    | cons addr rest ih =>
      unfold EmailAddressList.find
      rw [hab, ih]
  · intro cfg fs m from0 hfrom hfind
    unfold Archive.upsert_letter
    rw [hfrom]
    dsimp only
    rw [hfind]
  · intro cfg fs m from0 a to0 hfrom hfind hto hfindto
    unfold Archive.upsert_letter
    rw [hfrom]
    dsimp only
    rw [hfind]
    dsimp only
    rw [hto]
    dsimp only
    rw [hfindto]

/-- Witness for C6: an address sharing the allow-listed identity but with a
different display name finds the same entry; an unknown sender and an
unknown recipient are rejected without touching the directory. -/
theorem allowlist_identity_only_witness :
    ((⟨"Somebody Else".data, "mei@example.com".data⟩ : EmailAddr).email =
        meiAddr.email ∧
      EmailAddressList.find demoCfg.allowed_from_addrs
          ⟨"Somebody Else".data, "mei@example.com".data⟩ =
        EmailAddressList.find demoCfg.allowed_from_addrs meiAddr)
    ∧ (demoMail.from_ = some ⟨[], "mei@example.com".data⟩ ∧
      Archive.upsert_letter ⟨[], [], none⟩ emptyFS demoMail =
        (emptyFS, .error .senderNotAllowed))
    ∧ (demoMail.to_ = some ⟨[], "ge@example.com".data⟩ ∧
      Archive.upsert_letter ⟨[meiAddr], [], none⟩ emptyFS demoMail =
        (emptyFS, .error .recipientNotAllowed)) := by
  refine ⟨⟨by decide, ?_⟩, ⟨by decide, ?_⟩, ⟨by decide, ?_⟩⟩
  · exact allowlist_identity_only.1 demoCfg.allowed_from_addrs
      ⟨"Somebody Else".data, "mei@example.com".data⟩ meiAddr (by decide)
  · exact allowlist_identity_only.2.1 ⟨[], [], none⟩ emptyFS demoMail
      ⟨[], "mei@example.com".data⟩ (by decide) (by decide)
  · exact allowlist_identity_only.2.2 ⟨[meiAddr], [], none⟩ emptyFS demoMail
      ⟨[], "mei@example.com".data⟩ meiAddr ⟨[], "ge@example.com".data⟩
      (by decide) (by decide) (by decide) (by decide)

theorem upsert_letter_frame (cfg : ArchiveCfg) (fs : FS) (m : ParsedMail) :
    (∀ e, (Archive.upsert_letter cfg fs m).2 = .error e →
        (Archive.upsert_letter cfg fs m).1 = fs)
    ∧ (∀ L, (Archive.upsert_letter cfg fs m).2 = .ok L →
        (Archive.upsert_letter cfg fs m).1 = fsWrite fs L.letter_filename L) := by
  have key : ∀ (r : FS × Except UpsertErr LoveLetter),
      Archive.upsert_letter cfg fs m = r →
      ((∀ e, r.2 = .error e → r.1 = fs) ∧
       (∀ L, r.2 = .ok L → r.1 = fsWrite fs L.letter_filename L)) := by
    intro r hr
    unfold Archive.upsert_letter at hr
    dsimp only at hr
    repeat' split at hr
    all_goals subst hr
    all_goals refine ⟨fun e he => ?_, fun L hL => ?_⟩
    all_goals first
      | rfl
      | exact Except.noConfusion he
      | exact Except.noConfusion hL
      | (injection hL with h2; subst h2; rfl)
  exact key _ rfl

/-- **C2**: a second upsert resolving to the same target filename as an
earlier successful one, carrying no action while overwrite is not
configured, fails with the conflict error and leaves the letter directory
exactly as after the first call; and any upsert failure at address
validation, subject parsing, the unknown-action check or the conflict
check leaves the letter directory untouched. -/
theorem upsert_duplicate_conflict :
    (∀ (cfg : ArchiveCfg) (fs0 : FS) (m1 m2 : ParsedMail) (L1 : LoveLetter)
        (from2 a2 to2 b2 : EmailAddr) (subj2 body2 : Str) (d2 : Date)
        (t2 : Option Str) (flag : Bool),
      cfg.overwrite.getD false = false →
      (Archive.upsert_letter cfg fs0 m1).2 = .ok L1 →
      m2.from_ = some from2 →
      EmailAddressList.find cfg.allowed_from_addrs from2 = some a2 →
      m2.to_ = some to2 →
      EmailAddressList.find cfg.allowed_to_addrs to2 = some b2 →
      m2.subject = some subj2 →
      parse_subject subj2 = .ok (d2, t2, none) →
      m2.html_body = some body2 →
      is_from_meimei_or_gege cfg (if from2.display.isEmpty then a2 else from2) = .ok flag →
      letterFilename d2 t2 = L1.letter_filename →
      Archive.upsert_letter cfg (Archive.upsert_letter cfg fs0 m1).1 m2 =
        ((Archive.upsert_letter cfg fs0 m1).1, .error .conflict))
    ∧ (∀ (cfg : ArchiveCfg) (fs : FS) (m : ParsedMail) (e : UpsertErr),
      (Archive.upsert_letter cfg fs m).2 = .error e →
      (e = .senderNotAllowed ∨ e = .recipientNotAllowed ∨
        (∃ se, e = .malformedSubject se) ∨
        e = .conflict ∨ (∃ s, e = .unknownAction s)) →
      (Archive.upsert_letter cfg fs m).1 = fs) := by
  constructor
  · intro cfg fs0 m1 m2 L1 from2 a2 to2 b2 subj2 body2 d2 t2 flag
      hov h1 hfrom2 hfind2 hto2 hfindto2 hsub2 hparse2 hbody2 hrole2 hfn
    have hw := (upsert_letter_frame cfg fs0 m1).2 L1 h1
    generalize hgen : (Archive.upsert_letter cfg fs0 m1).1 = fs1
    rw [hgen] at hw
    have hlook : fs1 (letterFilename d2 t2) = some L1 := by
      rw [hw, hfn]
      unfold fsWrite
      rw [if_pos rfl]
    unfold Archive.upsert_letter
    rw [hfrom2]
    dsimp only
    rw [hfind2]
    dsimp only
    rw [hto2]
    dsimp only
    rw [hfindto2]
    dsimp only
    rw [hsub2]
    dsimp only
    rw [hparse2]
    dsimp only
    rw [hbody2]
    dsimp only
    rw [hrole2]
    dsimp only [LoveLetter.letter_filename]
    rw [hlook, hov]
    dsimp only
    rfl
  · intro cfg fs m e he _
    exact (upsert_letter_frame cfg fs m).1 e he

/-- Witness for C2: upserting `demoMail` twice into an empty directory —
the second call hits the conflict error and the state stays that of the
first call; and a sender-not-allowed failure writes nothing. -/
theorem upsert_duplicate_conflict_witness :
    (demoCfg.overwrite.getD false = false ∧
      (Archive.upsert_letter demoCfg emptyFS demoMail).2 = .ok demoLetter ∧
      letterFilename ⟨1998, 1, some 28⟩ none = demoLetter.letter_filename ∧
      Archive.upsert_letter demoCfg
          (Archive.upsert_letter demoCfg emptyFS demoMail).1 demoMail =
        ((Archive.upsert_letter demoCfg emptyFS demoMail).1, .error .conflict))
    ∧ ((Archive.upsert_letter ⟨[], [], none⟩ emptyFS demoMail).2 =
        .error .senderNotAllowed ∧
      (Archive.upsert_letter ⟨[], [], none⟩ emptyFS demoMail).1 = emptyFS) := by
  refine ⟨⟨by decide, by decide, by decide, ?_⟩, ⟨by decide, ?_⟩⟩
  · exact upsert_duplicate_conflict.1 demoCfg emptyFS demoMail demoMail demoLetter
      ⟨[], "mei@example.com".data⟩ meiAddr ⟨[], "ge@example.com".data⟩ geAddr
      "1998/01/28".data "hello".data ⟨1998, 1, some 28⟩ none true
      (by decide) (by decide) (by decide) (by decide) (by decide) (by decide)
      (by decide) (by decide) (by decide) (by decide) (by decide)
  · exact upsert_duplicate_conflict.2 ⟨[], [], none⟩ emptyFS demoMail
      .senderNotAllowed (by decide) (Or.inl rfl)

/-- **C3**: an upsert carrying the `edit` action whose target filename
already holds a record overwrites it with a record that keeps the
pre-existing creation timestamp while taking its content and update
timestamp from the incoming message. -/
theorem upsert_edit_preserves_created_at
    (cfg : ArchiveCfg) (fs : FS) (m : ParsedMail)
    (from0 a to0 b : EmailAddr) (subj body : Str) (d : Date)
    (t : Option Str) (flag : Bool) (old : LoveLetter)
    (hfrom : m.from_ = some from0)
    (hfind : EmailAddressList.find cfg.allowed_from_addrs from0 = some a)
    (hto : m.to_ = some to0)
    (hfindto : EmailAddressList.find cfg.allowed_to_addrs to0 = some b)
    (hsub : m.subject = some subj)
    (hparse : parse_subject subj = .ok (d, t, some "edit".data))
    (hbody : m.html_body = some body)
    (hrole : is_from_meimei_or_gege cfg
      (if from0.display.isEmpty then a else from0) = .ok flag)
    (hold : fs (letterFilename d t) = some old) :
    ∃ L, Archive.upsert_letter cfg fs m = (fsWrite fs (letterFilename d t) L, .ok L) ∧
      L.created_at = old.created_at ∧ L.updated_at = m.date ∧
      L.content = body ∧ L.date = d ∧ L.title = t := by
  refine ⟨{ from_ := if from0.display.isEmpty then a else from0,
            to_ := if to0.display.isEmpty then b else to0,
            from_meimei_if_true_and_gege_if_false := flag,
            created_at := old.created_at, updated_at := m.date,
            date := d, title := t, content := body },
    ?_, rfl, rfl, rfl, rfl, rfl⟩
  unfold Archive.upsert_letter
  rw [hfrom]
  dsimp only
  rw [hfind]
  dsimp only
  rw [hto]
  dsimp only
  rw [hfindto]
  dsimp only
  rw [hsub]
  dsimp only
  rw [hparse]
  dsimp only
  rw [hbody]
  dsimp only
  rw [hrole]
  dsimp only [LoveLetter.letter_filename]
  rw [hold]
  dsimp only
  rw [if_pos rfl]
  dsimp only
  simp

/-- Witness for C3: editing the existing 1998-01-28 record in `demoFS`
with `demoEditMail` keeps `created_at = some 100` while the content and
update timestamp come from the edit mail. -/
theorem upsert_edit_preserves_created_at_witness :
    demoFS (letterFilename ⟨1998, 1, some 28⟩ none) = some demoLetter ∧
    ∃ L, Archive.upsert_letter demoCfg demoFS demoEditMail =
        (fsWrite demoFS (letterFilename ⟨1998, 1, some 28⟩ none) L, .ok L) ∧
      L.created_at = demoLetter.created_at ∧ L.updated_at = demoEditMail.date ∧
      L.content = "revised".data ∧ L.date = ⟨1998, 1, some 28⟩ ∧ L.title = none := by
  refine ⟨by decide, ?_⟩
  exact upsert_edit_preserves_created_at demoCfg demoFS demoEditMail
    ⟨[], "mei@example.com".data⟩ meiAddr ⟨[], "ge@example.com".data⟩ geAddr
    "[edit] 1998/01/28".data "revised".data ⟨1998, 1, some 28⟩ none true demoLetter
    (by decide) (by decide) (by decide) (by decide) (by decide) (by decide)
    (by decide) (by decide) (by decide)

theorem lexLe_total : ∀ a b : Str, (lexLe a b || lexLe b a) = true := by
  intro a
  induction a with
  | nil => intro b; simp [lexLe]
  | cons x xs ih =>
    intro b
    cases b with
    | nil => simp [lexLe]
    | cons y ys =>
      by_cases hlt : x < y
      · simp [lexLe, hlt]
      · by_cases heq : x = y
        · subst heq
          simp only [lexLe, lt_irrefl, if_false, if_pos rfl]
          exact ih ys
        · have hgt : y < x := by
            rcases lt_trichotomy x y with h | h | h
            · exact absurd h hlt
            · exact absurd h heq
            · exact h
          simp [lexLe, hlt, heq, hgt]

theorem lexLe_trans : ∀ a b c : Str, lexLe a b = true → lexLe b c = true →
    lexLe a c = true := by
  intro a
  induction a with
  | nil => intro b c _ _; simp [lexLe]
  | cons x xs ih =>
    intro b c hab hbc
    cases b with
    | nil => simp [lexLe] at hab
    | cons y ys =>
      cases c with
      | nil => simp [lexLe] at hbc
      | cons z zs =>
        simp only [lexLe] at hab hbc ⊢
        by_cases hxy : x < y
        · by_cases hyz : y < z
          · rw [if_pos (hxy.trans hyz)]
          · by_cases hyz' : y = z
            · subst hyz'; rw [if_pos hxy]
            · simp [hyz, hyz'] at hbc
        · by_cases hxy' : x = y
          · subst hxy'
            by_cases hyz : x < z
            · rw [if_pos hyz]
            · by_cases hyz' : x = z
              · rw [if_neg hyz, if_pos hyz']
                rw [if_neg (lt_irrefl x), if_pos rfl] at hab
                subst hyz'
                rw [if_neg (lt_irrefl x), if_pos rfl] at hbc
                exact ih ys zs hab hbc
              · simp [hyz, hyz'] at hbc
          · simp [hxy, hxy'] at hab

theorem lexLe_antisymm : ∀ a b : Str, lexLe a b = true → lexLe b a = true →
    a = b := by
  intro a
  induction a with
  | nil =>
    intro b _ hba
    cases b with
    | nil => rfl
    | cons y ys => simp [lexLe] at hba
  | cons x xs ih =>
    intro b hab hba
    cases b with
    | nil => simp [lexLe] at hab
    | cons y ys =>
      simp only [lexLe] at hab hba
      by_cases hxy : x < y
      · have : ¬y < x := lt_asymm hxy
        simp [this, hxy.ne'] at hba
      · by_cases hxy' : x = y
        · subst hxy'
          rw [if_neg (lt_irrefl x), if_pos rfl] at hab hba
          rw [ih ys hab hba]
        · simp [hxy, hxy'] at hab

instance : IsTotal Str strLe :=
  ⟨fun a b => by
    have h := lexLe_total a b
    rcases Bool.or_eq_true_iff.mp h with h1 | h1
    · exact Or.inl h1
    · exact Or.inr h1⟩

instance : IsTrans Str strLe := ⟨fun a b c => lexLe_trans a b c⟩

instance : IsAntisymm Str strLe := ⟨fun a b => lexLe_antisymm a b⟩

theorem insertionSort_strLe_eq_of_perm (l1 l2 : List Str) (h : l1.Perm l2) :
    List.insertionSort strLe l1 = List.insertionSort strLe l2 := by
  apply List.eq_of_perm_of_sorted (r := strLe)
  · exact (List.perm_insertionSort strLe l1).trans
      (h.trans (List.perm_insertionSort strLe l2).symm)
  · exact List.sorted_insertionSort strLe l1
  · exact List.sorted_insertionSort strLe l2

theorem applyDocWrites_eq (ws : List (Str × Str)) :
    ∀ (docs : Str → Option Str) (k : Str),
      applyDocWrites docs ws k =
        match lastWrite ws k with
        | some v => some v
        | none => docs k := by
  induction ws with
  | nil => intro docs k; rfl
  | cons p rest ih =>
    intro docs k
    show applyDocWrites (fun x => if x = p.1 then some p.2 else docs x) rest k = _
    rw [ih]
    cases hlw : lastWrite rest k with
    | some v =>
      obtain ⟨f, c⟩ := p
      simp only [lastWrite, hlw]
    | none =>
      obtain ⟨f, c⟩ := p
      simp only [lastWrite, hlw]
      by_cases hk : k = f
      · rw [if_pos hk, if_pos hk]
      · rw [if_neg hk, if_neg hk]

theorem applyDocWrites_idem (ws : List (Str × Str)) (docs : Str → Option Str) :
    applyDocWrites (applyDocWrites docs ws) ws = applyDocWrites docs ws := by
  funext k
  rw [applyDocWrites_eq, applyDocWrites_eq]
  cases hlw : lastWrite ws k with
  | some v => rfl
  | none => rfl

/-- **C4**: the bytes `generate_rstdoc` writes are a pure function of the
current set of records — any two directory listings of the same files
produce identical writes (the `read_dir` order is irrelevant) — and
applying the same writes a second time (a second `generate()` with no
record changes) leaves every document file byte-identical. -/
theorem generate_rstdoc_deterministic :
    (∀ (fs : FS) (l1 l2 : List Str), l1.Perm l2 →
      Archive.generate_rstdoc fs l1 = Archive.generate_rstdoc fs l2)
    ∧ (∀ (fs : FS) (listing : List Str) (ws : List (Str × Str))
        (docs : Str → Option Str),
      Archive.generate_rstdoc fs listing = .ok ws →
      applyDocWrites (applyDocWrites docs ws) ws = applyDocWrites docs ws) := by
  constructor
  · intro fs l1 l2 h
    have hsorted : List.insertionSort strLe (l1.filter hasTomlExt) =
        List.insertionSort strLe (l2.filter hasTomlExt) :=
      insertionSort_strLe_eq_of_perm _ _ (h.filter hasTomlExt)
    unfold Archive.generate_rstdoc
    rw [hsorted]
  · intro fs listing ws docs _
    exact applyDocWrites_idem ws docs

/-- Witness for C4: the demo directory listed in either order generates
identical writes, and re-applying those writes changes nothing. -/
theorem generate_rstdoc_deterministic_witness :
    (demoListing.Perm demoListingRev ∧
      Archive.generate_rstdoc demoFS demoListing =
        Archive.generate_rstdoc demoFS demoListingRev)
    ∧ (Archive.generate_rstdoc demoFS demoListing = .ok demoGenWrites ∧
      applyDocWrites (applyDocWrites emptyDocs demoGenWrites) demoGenWrites =
        applyDocWrites emptyDocs demoGenWrites) := by
  refine ⟨⟨?_, ?_⟩, ⟨?_, ?_⟩⟩
  · decide
  · exact generate_rstdoc_deterministic.1 demoFS demoListing demoListingRev (by decide)
  · rfl
  · exact generate_rstdoc_deterministic.2 demoFS demoListing demoGenWrites emptyDocs rfl

theorem digitChar_toNat (d : Nat) (h : d < 10) : (digitChar d).toNat = 48 + d := by
  interval_cases d <;> decide

theorem isDigitC_digitChar (d : Nat) (h : d < 10) : isDigitC (digitChar d) = true := by
  interval_cases d <;> decide

theorem natCharsAux_all_digits :
    ∀ fuel n, ∀ c ∈ natCharsAux digitChar fuel n, isDigitC c = true := by
  intro fuel
  induction fuel with
  | zero => intro n c hc; simp [natCharsAux] at hc
  | succ fuel ih =>
    intro n c hc
    unfold natCharsAux at hc
    by_cases hn : n = 0
    · simp [hn] at hc
    · rw [if_neg hn] at hc
      rcases List.mem_append.mp hc with h | h
      · exact ih (n / 10) c h
      · rcases List.mem_singleton.mp h with rfl
        exact isDigitC_digitChar _ (Nat.mod_lt n (by omega))

theorem parseNatAux_append (a b : Str) (acc : Nat) :
    parseNatAux (a ++ b) acc = parseNatAux b (parseNatAux a acc) := by
  unfold parseNatAux
  exact List.foldl_append _ _ a b

theorem parseNatAux_natCharsAux :
    ∀ fuel n acc, n ≤ fuel →
      parseNatAux (natCharsAux digitChar fuel n) acc =
        acc * 10 ^ (natCharsAux digitChar fuel n).length + n := by
  intro fuel
  induction fuel with
  | zero =>
    intro n acc h
    have : n = 0 := by omega
    subst this
    simp [natCharsAux, parseNatAux]
  | succ fuel ih =>
    intro n acc h
    by_cases hn : n = 0
    · subst hn; simp [natCharsAux, parseNatAux]
    · have hstep : natCharsAux digitChar (fuel + 1) n =
          natCharsAux digitChar fuel (n / 10) ++ [digitChar (n % 10)] := by
        conv_lhs => unfold natCharsAux
        rw [if_neg hn]
      rw [hstep, parseNatAux_append]
      have hd : n / 10 ≤ fuel := by omega
      rw [ih (n / 10) acc hd]
      have hmod : (digitChar (n % 10)).toNat = 48 + n % 10 :=
        digitChar_toNat _ (Nat.mod_lt n (by omega))
      unfold parseNatAux
      simp only [List.foldl_cons, List.foldl_nil, List.length_append,
        List.length_singleton, hmod]
      rw [pow_succ]
      have : 48 + n % 10 - 48 = n % 10 := by omega
      rw [this]
      have hdm : n / 10 * 10 + n % 10 = n := by omega
      ring_nf
      omega

theorem natCharsAux_ne_nil (fuel n : Nat) (h1 : 1 ≤ n) (h2 : n ≤ fuel) :
    natCharsAux digitChar fuel n ≠ [] := by
  cases fuel with
  | zero => omega
  | succ fuel =>
    unfold natCharsAux
    rw [if_neg (by omega)]
    simp

theorem natChars_all_digits (n : Nat) : ∀ c ∈ natChars n, isDigitC c = true := by
  intro c hc
  unfold natChars at hc
  by_cases hn : n = 0
  · rw [if_pos hn] at hc
    rcases List.mem_singleton.mp hc with rfl
    decide
  · rw [if_neg hn] at hc
    exact natCharsAux_all_digits n n c hc

theorem natChars_ne_nil (n : Nat) : natChars n ≠ [] := by
  unfold natChars
  by_cases hn : n = 0
  · rw [if_pos hn]; simp
  · rw [if_neg hn]; exact natCharsAux_ne_nil n n (by omega) (Nat.le_refl n)

theorem parseNatAux_natChars (n : Nat) : parseNatAux (natChars n) 0 = n := by
  unfold natChars
  by_cases hn : n = 0
  · rw [if_pos hn, hn]; decide
  · rw [if_neg hn]
    rw [parseNatAux_natCharsAux n n 0 (Nat.le_refl n)]
    omega

theorem parseNatAux_zeros (k : Nat) : parseNatAux (List.replicate k '0') 0 = 0 := by
  induction k with
  | zero => rfl
  | succ k ih =>
    rw [List.replicate_succ]
    unfold parseNatAux at ih ⊢
    simpa using ih

theorem parseNatDigits_padZeros_natChars (w n : Nat) :
    parseNatDigits (padZeros w (natChars n)) = some n := by
  unfold parseNatDigits padZeros
  have hne : (List.replicate (w - (natChars n).length) '0' ++ natChars n) ≠ [] := by
    intro h
    exact natChars_ne_nil n (List.append_eq_nil.mp h).2
  rw [if_neg (fun hc => hne (List.isEmpty_iff.mp hc))]
  have hall : ((List.replicate (w - (natChars n).length) '0' ++ natChars n).all isDigitC) = true := by
    rw [List.all_eq_true]
    intro c hc
    rcases List.mem_append.mp hc with h | h
    · rcases List.eq_of_mem_replicate h with rfl; decide
    · exact natChars_all_digits n c h
  rw [if_pos hall, parseNatAux_append, parseNatAux_zeros, parseNatAux_natChars]

theorem splitOnce_eq_none (c : Char) : ∀ s : Str, c ∉ s → splitOnce c s = none := by
  intro s
  induction s with
  | nil => intro _; rfl
  | cons x xs ih =>
    intro h
    unfold splitOnce
    rw [if_neg (fun hc => h (List.mem_cons.mpr (Or.inl hc.symm)))]
    rw [ih (fun hc => h (List.mem_cons_of_mem x hc))]
    rfl

theorem splitOnce_append (c : Char) : ∀ (a b : Str), c ∉ a →
    splitOnce c (a ++ c :: b) = some (a, b) := by
  intro a
  induction a with
  | nil => intro b _; simp [splitOnce]
  | cons x xs ih =>
    intro b h
    have hx : ¬x = c := fun hc => h (List.mem_cons.mpr (Or.inl hc.symm))
    simp only [List.cons_append, splitOnce, if_neg hx, List.append_eq]
    rw [ih b (fun hc => h (List.mem_cons_of_mem x hc))]
    rfl

theorem splitAll_no_delim (c : Char) : ∀ s : Str, c ∉ s → splitAll c s = [s] := by
  intro s
  induction s with
  | nil => intro _; rfl
  | cons x xs ih =>
    intro h
    unfold splitAll
    rw [if_neg (fun hc => h (List.mem_cons.mpr (Or.inl hc.symm)))]
    rw [ih (fun hc => h (List.mem_cons_of_mem x hc))]

theorem splitAll_append (c : Char) : ∀ (a b : Str), c ∉ a →
    splitAll c (a ++ c :: b) = a :: splitAll c b := by
  intro a
  induction a with
  | nil => intro b _; simp [splitAll]
  | cons x xs ih =>
    intro b h
    have hx : ¬x = c := fun hc => h (List.mem_cons.mpr (Or.inl hc.symm))
    simp only [List.cons_append, splitAll, if_neg hx, List.append_eq]
    rw [ih b (fun hc => h (List.mem_cons_of_mem x hc))]

theorem b64CharVal_b64Char : ∀ v, v < 64 → b64CharVal (b64Char v) = some v := by
  decide

theorem b64Char_ne_pad : ∀ v, v < 64 → b64Char v ≠ '=' := by
  decide

theorem b64decode_b64encode :
    ∀ bs : List Nat, (∀ b ∈ bs, b < 256) → b64decode (b64encode bs) = some bs
  | [], _ => rfl
  | [b1], h => by
    have hb1 : b1 < 256 := h b1 (by simp)
    have h1 : b1 / 4 < 64 := by omega
    have h2 : b1 % 4 * 16 < 64 := by omega
    unfold b64encode b64decode
    rw [b64CharVal_b64Char _ h1, b64CharVal_b64Char _ h2]
    simp only [Option.some.injEq, List.cons.injEq, and_true, if_true, if_pos rfl]
    simp
    omega
  | [b1, b2], h => by
    have hb1 : b1 < 256 := h b1 (by simp)
    have hb2 : b2 < 256 := h b2 (by simp)
    have h1 : b1 / 4 < 64 := by omega
    have h2 : b1 % 4 * 16 + b2 / 16 < 64 := by omega
    have h3 : b2 % 16 * 4 < 64 := by omega
    unfold b64encode b64decode
    rw [b64CharVal_b64Char _ h1, b64CharVal_b64Char _ h2]
    simp [b64Char_ne_pad _ h3, b64CharVal_b64Char _ h3]
    omega
  | (b1 :: b2 :: b3 :: rest), h => by
    have hb1 : b1 < 256 := h b1 (by simp)
    have hb2 : b2 < 256 := h b2 (by simp)
    have hb3 : b3 < 256 := h b3 (by simp)
    have h1 : b1 / 4 < 64 := by omega
    have h2 : b1 % 4 * 16 + b2 / 16 < 64 := by omega
    have h3 : b2 % 16 * 4 + b3 / 64 < 64 := by omega
    have h4 : b3 % 64 < 64 := by omega
    have ih := b64decode_b64encode rest (fun b hb => h b (by simp [hb]))
    show b64decode (b64Char (b1 / 4) :: b64Char (b1 % 4 * 16 + b2 / 16) ::
      b64Char (b2 % 16 * 4 + b3 / 64) :: b64Char (b3 % 64) :: b64encode rest) = _
    unfold b64decode
    rw [b64CharVal_b64Char _ h1, b64CharVal_b64Char _ h2]
    simp [b64Char_ne_pad _ h3, b64CharVal_b64Char _ h3,
      b64Char_ne_pad _ h4, b64CharVal_b64Char _ h4, ih]
    omega

theorem utf8EncodeChar_lt_256 (c : Char) : ∀ b ∈ utf8EncodeChar c, b < 256 := by
  intro b hb
  have hv : c.toNat < 1114112 := by
    have h := c.valid
    unfold UInt32.isValidChar Nat.isValidChar at h
    rcases h with h | ⟨_, h⟩
    · have : c.val.toNat < 55296 := h
      show c.val.toNat < 1114112
      omega
    · exact h
  unfold utf8EncodeChar at hb
  by_cases h1 : c.toNat < 128
  · rw [if_pos h1] at hb
    have : b = c.toNat := by simpa using hb
    omega
  · rw [if_neg h1] at hb
    by_cases h2 : c.toNat < 2048
    · rw [if_pos h2] at hb
      have : b = 192 + c.toNat / 64 ∨ b = 128 + c.toNat % 64 := by simpa using hb
      rcases this with rfl | rfl <;> omega
    · rw [if_neg h2] at hb
      by_cases h3 : c.toNat < 65536
      · rw [if_pos h3] at hb
        have : b = 224 + c.toNat / 4096 ∨ b = 128 + c.toNat / 64 % 64 ∨
            b = 128 + c.toNat % 64 := by simpa using hb
        rcases this with rfl | rfl | rfl <;> omega
      · rw [if_neg h3] at hb
        have : b = 240 + c.toNat / 262144 ∨ b = 128 + c.toNat / 4096 % 64 ∨
            b = 128 + c.toNat / 64 % 64 ∨ b = 128 + c.toNat % 64 := by simpa using hb
        rcases this with rfl | rfl | rfl | rfl <;> omega

theorem utf8Encode_lt_256 (s : Str) : ∀ b ∈ utf8Encode s, b < 256 := by
  intro b hb
  unfold utf8Encode at hb
  rcases List.mem_flatten.mp hb with ⟨l, hl, hbl⟩
  rcases List.mem_map.mp hl with ⟨c, _, rfl⟩
  exact utf8EncodeChar_lt_256 c b hbl

theorem padZeros_natChars_digit (w n : Nat) :
    ∀ c ∈ padZeros w (natChars n), isDigitC c = true := by
  intro c hc
  unfold padZeros at hc
  rcases List.mem_append.mp hc with h | h
  · rcases List.eq_of_mem_replicate h with rfl; decide
  · exact natChars_all_digits n c h

theorem padZeros_ne_nil (w n : Nat) : padZeros w (natChars n) ≠ [] := by
  unfold padZeros
  intro h
  exact natChars_ne_nil n (List.append_eq_nil.mp h).2

theorem isDigitC_ne_dash (c : Char) (h : isDigitC c = true) : ¬c = '-' :=
  fun hc => by subst hc; exact absurd h (by decide)

theorem isDigitC_ne_plus (c : Char) (h : isDigitC c = true) : ¬c = '+' :=
  fun hc => by subst hc; exact absurd h (by decide)

theorem isDigitC_ne_uscore (c : Char) (h : isDigitC c = true) : ¬c = '_' :=
  fun hc => by subst hc; exact absurd h (by decide)

theorem dash_not_mem_padZeros (w n : Nat) : '-' ∉ padZeros w (natChars n) :=
  fun hc => isDigitC_ne_dash '-' (padZeros_natChars_digit w n '-' hc) rfl

theorem uscore_not_mem_padZeros (w n : Nat) : '_' ∉ padZeros w (natChars n) :=
  fun hc => isDigitC_ne_uscore '_' (padZeros_natChars_digit w n '_' hc) rfl

theorem Date.display_valid_eq (d : Date)
    (h : chronoYmdValid d.year d.month (d.day.getD 1) = true) :
    Date.display d = yearChars d.year ++ '-' :: pad2 d.month ++
      (match d.day with
       | some dd => '-' :: pad2 dd
       | none => []) := by
  unfold Date.display
  rw [if_pos h]

theorem uscore_not_mem_yearChars (y : Int) : '_' ∉ yearChars y := by
  intro h1
  unfold yearChars at h1
  by_cases hy : (0 ≤ y && y < 10000) = true
  · rw [if_pos hy] at h1
    exact uscore_not_mem_padZeros 4 _ h1
  · rw [if_neg hy] at h1
    by_cases hy2 : y < 0
    · rw [if_pos hy2] at h1
      rcases List.mem_cons.mp h1 with h2 | h2
      · exact absurd h2.symm (by decide)
      · exact uscore_not_mem_padZeros 4 _ h2
    · rw [if_neg hy2] at h1
      rcases List.mem_cons.mp h1 with h2 | h2
      · exact absurd h2.symm (by decide)
      · exact uscore_not_mem_padZeros 4 _ h2

theorem uscore_not_mem_display (d : Date) : '_' ∉ Date.display d := by
  intro hc
  unfold Date.display at hc
  by_cases h : chronoYmdValid d.year d.month (d.day.getD 1) = true
  · rw [if_pos h] at hc
    simp only [List.append_assoc, List.cons_append] at hc
    rcases List.mem_append.mp hc with h1 | h1
    · exact uscore_not_mem_yearChars d.year h1
    · rcases List.mem_cons.mp h1 with h2 | h2
      · exact absurd h2.symm (by decide)
      · rcases List.mem_append.mp h2 with h3 | h3
        · exact uscore_not_mem_padZeros 2 _ h3
        · cases hd : d.day with
          | some dd =>
            rw [hd] at h3
            rcases List.mem_cons.mp h3 with h4 | h4
            · exact absurd h4.symm (by decide)
            · exact uscore_not_mem_padZeros 2 _ h4
          | none => rw [hd] at h3; cases h3
  · rw [if_neg h] at hc
    cases hc

theorem decodeDateFields_eq_none (neg : Bool) (n m : Nat) :
    decodeDateFields neg (padZeros 4 (natChars n) ++ ('-' :: pad2 m)) =
      some (mkDate neg n m none) := by
  unfold decodeDateFields
  rw [splitAll_append '-' _ _ (dash_not_mem_padZeros 4 n),
    splitAll_no_delim '-' (pad2 m) (dash_not_mem_padZeros 2 m)]
  dsimp only
  rw [parseNatDigits_padZeros_natChars 4 n]
  rw [show parseNatDigits (pad2 m) = some m from parseNatDigits_padZeros_natChars 2 m]
  rfl

theorem decodeDateFields_eq_some (neg : Bool) (n m dd : Nat) :
    decodeDateFields neg (padZeros 4 (natChars n) ++
      ('-' :: (pad2 m ++ '-' :: pad2 dd))) = some (mkDate neg n m (some dd)) := by
  unfold decodeDateFields
  rw [splitAll_append '-' _ _ (dash_not_mem_padZeros 4 n),
    splitAll_append '-' (pad2 m) (pad2 dd) (dash_not_mem_padZeros 2 m),
    splitAll_no_delim '-' (pad2 dd) (dash_not_mem_padZeros 2 dd)]
  dsimp only
  rw [parseNatDigits_padZeros_natChars 4 n]
  rw [show parseNatDigits (pad2 m) = some m from parseNatDigits_padZeros_natChars 2 m]
  rw [show parseNatDigits (pad2 dd) = some dd from parseNatDigits_padZeros_natChars 2 dd]
  rfl

theorem decodeDateChars_eq_fields (y : Int) (B : Str) :
    decodeDateChars (yearChars y ++ ('-' :: B)) =
      (if 0 ≤ y then decodeDateFields false (padZeros 4 (natChars y.toNat) ++ ('-' :: B))
       else decodeDateFields true (padZeros 4 (natChars y.natAbs) ++ ('-' :: B))) := by
  unfold yearChars
  by_cases hy : (0 ≤ y && y < 10000) = true
  · rw [if_pos hy]
    have hy1 : 0 ≤ y := by
      rcases Bool.and_eq_true_iff.mp hy with ⟨h1, _⟩
      exact of_decide_eq_true h1
    cases hA : padZeros 4 (natChars y.toNat) with
    | nil => exact absurd hA (padZeros_ne_nil 4 y.toNat)
    | cons a0 A' =>
      have ha0 : isDigitC a0 = true :=
        padZeros_natChars_digit 4 y.toNat a0 (by rw [hA]; exact List.mem_cons_self a0 A')
      rw [List.cons_append]
      unfold decodeDateChars
      dsimp only
      rw [if_neg (isDigitC_ne_dash a0 ha0), if_neg (isDigitC_ne_plus a0 ha0)]
      rw [← List.cons_append, ← hA, if_pos hy1]
  · rw [if_neg hy]
    by_cases hy2 : y < 0
    · rw [if_pos hy2, List.cons_append]
      unfold decodeDateChars
      dsimp only
      rw [if_pos rfl, if_neg (by omega)]
    · rw [if_neg hy2, List.cons_append]
      unfold decodeDateChars
      dsimp only
      rw [if_neg (by decide), if_pos rfl, if_pos (by omega)]

theorem decodeDateChars_display (d : Date)
    (h : chronoYmdValid d.year d.month (d.day.getD 1) = true) :
    decodeDateChars (Date.display d) = some d := by
  obtain ⟨y, m, day⟩ := d
  cases day with
  | none =>
    have hS : Date.display ⟨y, m, none⟩ = yearChars y ++ ('-' :: pad2 m) := by
      rw [Date.display_valid_eq _ h]
      simp
    rw [hS, decodeDateChars_eq_fields]
    by_cases hy : 0 ≤ y
    · rw [if_pos hy, decodeDateFields_eq_none]
      unfold mkDate
      rw [if_neg (by simp)]
      congr 2
      exact Int.toNat_of_nonneg hy
    · rw [if_neg hy, decodeDateFields_eq_none]
      unfold mkDate
      rw [if_pos rfl]
      congr 2
      omega
  | some dd =>
    have hS : Date.display ⟨y, m, some dd⟩ =
        yearChars y ++ ('-' :: (pad2 m ++ '-' :: pad2 dd)) := by
      rw [Date.display_valid_eq _ h]
      simp [List.append_assoc, List.cons_append]
    rw [hS, decodeDateChars_eq_fields]
    by_cases hy : 0 ≤ y
    · rw [if_pos hy, decodeDateFields_eq_some]
      unfold mkDate
      rw [if_neg (by simp)]
      congr 3
      exact Int.toNat_of_nonneg hy
    · rw [if_neg hy, decodeDateFields_eq_some]
      unfold mkDate
      rw [if_pos rfl]
      congr 3
      omega

/-- **C9**: for every calendar-valid date and optional title, the letter
filename — date text alone, or date text, underscore, base64url-encoded
title — decodes back to exactly that date and the exact UTF-8 bytes of
the title. -/
theorem letter_filename_roundtrip (d : Date) (t : Option Str)
    (h : chronoYmdValid d.year d.month (d.day.getD 1) = true) :
    decodeFilename (letterFilename d t) = some (d, t.map utf8Encode) := by
  cases t with
  | none =>
    unfold letterFilename decodeFilename
    dsimp only
    have hlen : (Date.display d ++ ".toml".data).length =
        (Date.display d).length + 5 := by simp
    have hdrop : (Date.display d ++ ".toml".data).drop
        ((Date.display d ++ ".toml".data).length - 5) = ".toml".data := by
      rw [hlen, Nat.add_sub_cancel]
      exact List.drop_left _ _
    have htake : (Date.display d ++ ".toml".data).take
        ((Date.display d ++ ".toml".data).length - 5) = Date.display d := by
      rw [hlen, Nat.add_sub_cancel]
      exact List.take_left _ _
    rw [if_pos ⟨hdrop, by rw [hlen]; omega⟩]
    rw [htake]
    rw [splitOnce_eq_none '_' _ (uscore_not_mem_display d)]
    rw [decodeDateChars_display d h]
    rfl
  | some title =>
    unfold letterFilename decodeFilename
    dsimp only
    have hlen : ((Date.display d ++ '_' :: b64encode (utf8Encode title)) ++ ".toml".data).length =
        (Date.display d ++ '_' :: b64encode (utf8Encode title)).length + 5 := by
      simp
      omega
    have hdrop : ((Date.display d ++ '_' :: b64encode (utf8Encode title)) ++ ".toml".data).drop
        (((Date.display d ++ '_' :: b64encode (utf8Encode title)) ++ ".toml".data).length - 5) =
        ".toml".data := by
      rw [hlen, Nat.add_sub_cancel]
      exact List.drop_left _ _
    have htake : ((Date.display d ++ '_' :: b64encode (utf8Encode title)) ++ ".toml".data).take
        (((Date.display d ++ '_' :: b64encode (utf8Encode title)) ++ ".toml".data).length - 5) =
        Date.display d ++ '_' :: b64encode (utf8Encode title) := by
      rw [hlen, Nat.add_sub_cancel]
      exact List.take_left _ _
    rw [if_pos ⟨hdrop, by rw [hlen]; omega⟩]
    rw [htake]
    rw [splitOnce_append '_' _ _ (uscore_not_mem_display d)]
    dsimp only
    rw [decodeDateChars_display d h]
    rw [b64decode_b64encode (utf8Encode title) (utf8Encode_lt_256 title)]
    rfl

/-- Witness for C9 at the date 1998-01-28 with title `"T妹"` and with no
title. -/
theorem letter_filename_roundtrip_witness :
    chronoYmdValid (1998 : Int) 1 28 = true ∧
    decodeFilename (letterFilename ⟨1998, 1, some 28⟩ (some "T妹".data)) =
      some (⟨1998, 1, some 28⟩, some (utf8Encode "T妹".data)) ∧
    decodeFilename (letterFilename ⟨1998, 1, some 28⟩ none) =
      some (⟨1998, 1, some 28⟩, none) :=
  ⟨by decide,
   letter_filename_roundtrip ⟨1998, 1, some 28⟩ (some "T妹".data) (by decide),
   letter_filename_roundtrip ⟨1998, 1, some 28⟩ none (by decide)⟩

theorem alLookup_alSet (m : List (Str × Str)) (q nv : Str) :
    ∀ k, alLookup (alSet m q nv) k =
      if q = k ∧ (alLookup m q).isSome then some nv else alLookup m k := by
  induction m with
  | nil =>
    intro k
    simp [alSet, alLookup]
  | cons p rest ih =>
    intro k
    obtain ⟨f, v⟩ := p
    unfold alSet
    by_cases hfq : f = q
    · subst hfq
      rw [if_pos rfl]
      unfold alLookup
      by_cases hfk : f = k
      · rw [if_pos hfk, if_pos hfk]
        rw [if_pos ⟨hfk, by rw [if_pos rfl]; rfl⟩]
      · rw [if_neg hfk, if_neg hfk]
        rw [if_neg (fun hc => hfk hc.1)]
    · rw [if_neg hfq]
      unfold alLookup
      by_cases hfk : f = k
      · rw [if_pos hfk, if_pos hfk]
        rw [if_neg (by rintro ⟨h1, _⟩; exact hfq (hfk.trans h1.symm))]
      · rw [if_neg hfk, if_neg hfk, ih k]
        rw [if_neg hfq]

theorem alLookup_append_single (m : List (Str × Str)) (f v : Str) :
    ∀ k, alLookup (m ++ [(f, v)]) k =
      match alLookup m k with
      | some c => some c
      | none => if f = k then some v else none := by
  induction m with
  | nil =>
    intro k
    simp [alLookup]
  | cons p rest ih =>
    intro k
    obtain ⟨g, w⟩ := p
    simp only [List.cons_append]
    unfold alLookup
    by_cases hgk : g = k
    · rw [if_pos hgk, if_pos hgk]
    · rw [if_neg hgk, if_neg hgk, ih k]

theorem rstdocLoop_lookup (fs : FS) :
    ∀ (entries : List Str) (m m' : List (Str × Str)),
      rstdocLoop fs entries m = .ok m' →
      ∀ k, alLookup m' k =
        groupContent (alLookup m k)
          ((entries.filterMap fs).filter (fun r => decide (r.rstdoc_filename = k))) := by
  intro entries
  induction entries with
  | nil =>
    intro m m' hok k
    have hm : m' = m := by
      unfold rstdocLoop at hok
      injection hok with h
      exact h.symm
    subst hm
    simp only [List.filterMap_nil, List.filter_nil]
    cases alLookup m' k with
    | none => rfl
    | some c => simp [groupContent]
  | cons e rest ih =>
    intro m m' hok k
    unfold rstdocLoop at hok
    cases hfe : fs e with
    | none =>
      rw [hfe] at hok
      exact Except.noConfusion hok
    | some letter =>
      rw [hfe] at hok
      dsimp only at hok
      have hfm : (e :: rest).filterMap fs = letter :: rest.filterMap fs := by
        simp [List.filterMap_cons, hfe]
      rw [hfm]
      by_cases hk : letter.rstdoc_filename = k
      · -- the new letter lands in document k
        rw [List.filter_cons_of_pos (by simp [hk])]
        cases hml : alLookup m letter.rstdoc_filename with
        | some content =>
          rw [hml] at hok
          have ihh := ih _ m' hok k
          rw [ihh, alLookup_alSet]
          rw [if_pos ⟨hk, by rw [hml]; rfl⟩]
          rw [← hk, hml]
          simp [groupContent, List.append_assoc]
        | none =>
          rw [hml] at hok
          have ihh := ih _ m' hok k
          rw [ihh, alLookup_append_single]
          rw [← hk, hml]
          dsimp only
          rw [if_pos rfl]
          simp [groupContent, List.append_assoc]
      · -- document k is unaffected by this letter
        rw [List.filter_cons_of_neg (by simp [hk])]
        cases hml : alLookup m letter.rstdoc_filename with
        | some content =>
          rw [hml] at hok
          have ihh := ih _ m' hok k
          rw [ihh, alLookup_alSet]
          rw [if_neg (by rintro ⟨h1, _⟩; exact hk h1)]
        | none =>
          rw [hml] at hok
          have ihh := ih _ m' hok k
          rw [ihh, alLookup_append_single]
          cases halk : alLookup m k with
          | some c => rfl
          | none => rw [if_neg hk]

theorem natChars_inj (a b : Nat) (h : natChars a = natChars b) : a = b := by
  have ha := parseNatAux_natChars a
  have hb := parseNatAux_natChars b
  rw [h] at ha
  omega

theorem natChars_head_digit (n : Nat) :
    ∃ c cs, natChars n = c :: cs ∧ isDigitC c = true := by
  cases hn : natChars n with
  | nil => exact absurd hn (natChars_ne_nil n)
  | cons c cs =>
    exact ⟨c, cs, rfl, natChars_all_digits n c (by rw [hn]; exact List.mem_cons_self c cs)⟩

theorem intChars_inj (y1 y2 : Int) (h : intChars y1 = intChars y2) : y1 = y2 := by
  unfold intChars at h
  by_cases h1 : y1 < 0 <;> by_cases h2 : y2 < 0
  · rw [if_pos h1, if_pos h2] at h
    injection h with _ h'
    have := natChars_inj _ _ h'
    omega
  · rw [if_pos h1, if_neg h2] at h
    obtain ⟨c, cs, hc, hd⟩ := natChars_head_digit y2.toNat
    rw [hc] at h
    injection h with h' _
    exact absurd hd (by rw [← h']; decide)
  · rw [if_neg h1, if_pos h2] at h
    obtain ⟨c, cs, hc, hd⟩ := natChars_head_digit y1.toNat
    rw [hc] at h
    injection h with h' _
    exact absurd hd (by rw [h']; decide)
  · rw [if_neg h1, if_neg h2] at h
    have := natChars_inj _ _ h
    omega

theorem rstdoc_filename_inj (r1 r2 : LoveLetter)
    (h : r1.date.year ≠ r2.date.year) :
    r1.rstdoc_filename ≠ r2.rstdoc_filename := by
  intro hc
  unfold LoveLetter.rstdoc_filename at hc
  exact h (intChars_inj _ _ (List.append_cancel_right hc))

/-- **C8**: in the writes of `generate_rstdoc`, every non-index document
holds exactly the records of its year group — one heading, then the
records' sections in the order of the descending-sorted letter filename
list — that list is sorted descending; and two records with different
years target two distinct year documents. -/
theorem year_docs_grouped_and_sorted :
    (∀ (fs : FS) (listing : List Str) (ws : List (Str × Str)),
      Archive.generate_rstdoc fs listing = .ok ws →
      ∀ k, k ≠ "index.rst".data →
        alLookup ws k = yearDocContent (yearGroup fs listing k))
    ∧ (∀ listing : List Str,
        ((List.insertionSort strLe (listing.filter hasTomlExt)).reverse).Pairwise
          (fun a b => strLe b a))
    ∧ (∀ r1 r2 : LoveLetter, r1.date.year ≠ r2.date.year →
        r1.rstdoc_filename ≠ r2.rstdoc_filename) := by
  refine ⟨?_, ?_, rstdoc_filename_inj⟩
  · intro fs listing ws hok k hki
    unfold Archive.generate_rstdoc at hok
    cases hloop : rstdocLoop fs
        ((List.insertionSort strLe (listing.filter hasTomlExt)).reverse) [] with
    | error e => rw [hloop] at hok; exact Except.noConfusion hok
    | ok docs =>
      rw [hloop] at hok
      dsimp only at hok
      injection hok with h
      subst h
      unfold alLookup
      rw [if_neg (fun hc => hki hc.symm)]
      rw [rstdocLoop_lookup fs _ [] docs hloop k]
      rfl
  · intro listing
    rw [List.pairwise_reverse]
    exact List.sorted_insertionSort strLe (listing.filter hasTomlExt)

/-- Witness for C8: in the demo directory the 1998 document holds exactly
the 1998 group, and the 1998 and 2025 records go to distinct documents. -/
theorem year_docs_grouped_and_sorted_witness :
    (Archive.generate_rstdoc demoFS demoListing = .ok demoGenWrites ∧
      "1998.toml".data ≠ "index.rst".data ∧
      alLookup demoGenWrites "1998.toml".data =
        yearDocContent (yearGroup demoFS demoListing "1998.toml".data))
    ∧ (demoLetter.date.year ≠ demoLetter2025.date.year ∧
      demoLetter.rstdoc_filename ≠ demoLetter2025.rstdoc_filename) := by
  refine ⟨⟨rfl, by decide, ?_⟩, ⟨by decide, ?_⟩⟩
  · exact year_docs_grouped_and_sorted.1 demoFS demoListing demoGenWrites rfl _ (by decide)
  · exact year_docs_grouped_and_sorted.2.2 demoLetter demoLetter2025 (by decide)
